import Mathlib

/-!
Shallow embedding of the `semtype` tool (src/main.go): a semantic-version
inference engine that snapshots the exported API surface of a Go package,
diffs it against a persisted previous snapshot, and bumps a three-component
version accordingly.

Pure functions of the source are translated directly; the interactions with
the file system, the Go parser and the `go/format` renderer are modelled at
their collaborator boundary (inputs become explicit parameters, canonical
rendering becomes a total injective-enough string renderer).
-/

namespace Semtype

/-- Mirrors `type Exported struct` (src/main.go): the two Go maps
`Types` and `Functions` are modelled as association lists whose entries are
the map's key/value pairs; a well-formed snapshot has no duplicate keys. -/
structure Exported where
  Types : List (String × String)
  Functions : List (String × String)
deriving DecidableEq, Repr

/-- Mirrors `type State struct` (src/main.go). -/
structure State where
  Version : String
  Exported : Exported
deriving DecidableEq, Repr

/-- Mirrors `type Version struct { Major, Minor, Patch int }` (src/main.go).
Go's `int` is a 64-bit two's-complement integer; the fields are carried as
`Int` and every arithmetic operation the program performs on them applies
the explicit 64-bit wraparound `wrap64`. -/
structure Version where
  Major : Int
  Minor : Int
  Patch : Int
deriving DecidableEq, Repr

/-- Two's-complement wraparound of Go's 64-bit `int`: reduces an integer
into `[-2^63, 2^63)`, as Go's `int` addition does on overflow. -/
def wrap64 (n : Int) : Int :=
  (n + 2 ^ 63) % 2 ^ 64 - 2 ^ 63

/-! ### Version-string scanning

`parseVersion` (src/main.go) delegates to `fmt.Sscanf(version, "%d.%d.%d", ...)`.
The scanner below models that collaborator: each `%d` skips blanks, accepts an
optional sign and a nonempty digit run, and rejects values outside the signed
64-bit range; the literal `.` must match exactly; input remaining after the
third `%d` is ignored by `Sscanf`. -/

def isBlank (c : Char) : Bool :=
  c == ' ' || c == '\t'

/-- Value of a run of decimal digits, most significant first. -/
def digitsToNat (ds : List Char) : Nat :=
  ds.foldl (fun acc c => 10 * acc + (c.toNat - '0'.toNat)) 0

/-- Optional leading sign, as consumed by a `%d` conversion. -/
def scanSign (cs : List Char) : Bool × List Char :=
  match cs with
  | c :: rest =>
      if c = '-' then (true, rest)
      else if c = '+' then (false, rest)
      else (false, cs)
  | [] => (false, cs)

/-- Signed 64-bit range check performed by the scanner (`strconv` range error). -/
def intRangeOk (neg : Bool) (m : Nat) : Bool :=
  if neg then m ≤ 2 ^ 63 else m < 2 ^ 63

/-- One `%d` conversion: skip blanks, optional sign, nonempty digit run,
64-bit range check.  Returns the value and the unread remainder. -/
def scanInt (cs : List Char) : Option (Int × List Char) :=
  let cs := cs.dropWhile isBlank
  let (neg, cs) := scanSign cs
  let ds := cs.takeWhile Char.isDigit
  let rest := cs.dropWhile Char.isDigit
  if ds.isEmpty then none
  else if intRangeOk neg (digitsToNat ds) then
    some (if neg then -(digitsToNat ds : Int) else (digitsToNat ds : Int), rest)
  else none

/-- A literal character of the format string must match the next input char. -/
def expectChar (c : Char) : List Char → Option (List Char)
  | x :: rest => if x == c then some rest else none
  | [] => none

/-- The whole `fmt.Sscanf(version, "%d.%d.%d", ...)` call: `some` of the three
values when all three conversions succeed, `none` on any scan error; input
remaining after the third conversion is ignored. -/
def sscanf3 (s : String) : Option (Int × Int × Int) :=
  match scanInt s.toList with
  | none => none
  | some (a, r1) =>
    match expectChar '.' r1 with
    | none => none
    | some r1 =>
      match scanInt r1 with
      | none => none
      | some (b, r2) =>
        match expectChar '.' r2 with
        | none => none
        | some r2 =>
          match scanInt r2 with
          | none => none
          | some (c, _) => some (a, b, c)

/-- Mirrors `parseVersion` (src/main.go): on any scan failure the baseline
`(0,0,0)` is substituted (a diagnostic is logged) and the run continues. -/
def parseVersion (version : String) : Version :=
  match sscanf3 version with
  | some (a, b, c) => ⟨a, b, c⟩
  | none => ⟨0, 0, 0⟩

/-- Mirrors the `String` method of `Version` (src/main.go). -/
def Version.string (v : Version) : String :=
  toString v.Major ++ "." ++ toString v.Minor ++ "." ++ toString v.Patch

/-! ### Diff classification (src/main.go `hasBreakingChanges`, `hasNewFeatures`) -/

/-- Mirrors `hasBreakingChanges` (src/main.go): true when any previously
exported type or function is absent from the current snapshot or maps to a
different normalized signature. -/
def hasBreakingChanges (previous current : Exported) : Bool :=
  (previous.Types.any fun p =>
    match current.Types.lookup p.1 with
    | none => true
    | some currentType => currentType != p.2) ||
  (previous.Functions.any fun p =>
    match current.Functions.lookup p.1 with
    | none => true
    | some currentFunc => currentFunc != p.2)

/-- Mirrors `hasNewFeatures` (src/main.go): true when the current snapshot
contains a type or function name absent from the previous one. -/
def hasNewFeatures (previous current : Exported) : Bool :=
  (current.Types.any fun p => (previous.Types.lookup p.1).isNone) ||
  (current.Functions.any fun p => (previous.Functions.lookup p.1).isNone)

/-- The three diff outcomes of the spec's Diff Classifier. -/
inductive Classification where
  | Breaking
  | Additive
  | NoChange
deriving DecidableEq, Repr

/-- The classification implicit in `calculateVersion`'s branch structure:
breaking dominates additive dominates no-change. -/
def classify (previous current : Exported) : Classification :=
  if hasBreakingChanges previous current then .Breaking
  else if hasNewFeatures previous current then .Additive
  else .NoChange

/-- Mirrors `calculateVersion` (src/main.go).  The `+ 1` on a Go `int`
component wraps at `2^63`, written with the explicit `wrap64`. -/
def calculateVersion (previousState : State) (currentExported : Exported) : Version :=
  let previousVersion := parseVersion previousState.Version
  if hasBreakingChanges previousState.Exported currentExported then
    ⟨wrap64 (previousVersion.Major + 1), 0, 0⟩
  else if hasNewFeatures previousState.Exported currentExported then
    ⟨previousVersion.Major, wrap64 (previousVersion.Minor + 1), 0⟩
  else
    ⟨previousVersion.Major, previousVersion.Minor, wrap64 (previousVersion.Patch + 1)⟩

/-- Strict lexicographic order on version triples (spec §3). -/
def Version.lt (a b : Version) : Prop :=
  a.Major < b.Major ∨
    (a.Major = b.Major ∧
      (a.Minor < b.Minor ∨ (a.Minor = b.Minor ∧ a.Patch < b.Patch)))

instance (a b : Version) : Decidable (Version.lt a b) := by
  unfold Version.lt
  infer_instance

/-! ### AST model and declaration normalization

`ast.Field`, `ast.StructType`, `ast.TypeSpec`, `ast.FuncDecl` are modelled
with just the structure the analyzer inspects.  A field's type expression and
a function's parameter/result lists are never taken apart by the analyzer, so
they are carried as their canonical rendering (the `go/format` collaborator's
output for that subtree). -/

/-- One `ast.Field` of a struct's field list: its (possibly empty, possibly
plural) name list and the canonical rendering of its type expression. -/
structure Field where
  names : List String
  typ : String
deriving DecidableEq, Repr

/-- The type expression of a `TypeSpec`: the analyzer distinguishes only
`*ast.StructType` from everything else (`simplifyType`'s type switch); a
non-struct type is carried as its canonical rendering. -/
inductive TypeExpr where
  | structType (fields : List Field)
  | nonStruct (render : String)
deriving DecidableEq, Repr

/-- Mirrors `ast.Ident.IsExported` / `token.IsExported`: the first character
of the name is upper case (ASCII approximation of `unicode.IsUpper`). -/
def isExported (name : String) : Bool :=
  match name.toList with
  | [] => false
  | c :: _ => c.isUpper

/-- The field-retention test of `simplifyType` (src/main.go line 218):
`len(field.Names) > 0 && field.Names[0].IsExported()`. -/
def keepField (field : Field) : Bool :=
  match field.names with
  | [] => false
  | n :: _ => isExported n

/-- Mirrors `simplifyType` (src/main.go): a struct type keeps only the fields
passing `keepField`, in declared order; any other type node is returned
unchanged. -/
def simplifyType : TypeExpr → TypeExpr
  | .structType fields => .structType (fields.filter keepField)
  | t => t

/-- Rendering of one field group, as `go/format` prints it
(`"A, b int"`). -/
def renderField (f : Field) : String :=
  String.intercalate ", " f.names ++ " " ++ f.typ

/-- Mirrors `formatNode` (src/main.go), i.e. the external `go/format`
canonical renderer, on the node shapes the analyzer produces.  Modelled as a
total function: the renderer does not fail on well-formed nodes (the Go
error path merely skips the declaration with a diagnostic). -/
def formatNode : TypeExpr → String
  | .structType fields =>
      "struct \x7b" ++ String.intercalate "; " (fields.map renderField) ++ "\x7d"
  | .nonStruct render => render

/-- Observer for the field list of a (simplified) struct type. -/
def structFields : TypeExpr → List Field
  | .structType fields => fields
  | .nonStruct _ => []

/-- One `ast.TypeSpec`: the declared type name and its type expression. -/
structure TypeSpec where
  name : String
  typ : TypeExpr
deriving DecidableEq, Repr

/-- One spec of an `ast.GenDecl`: only `*ast.TypeSpec` is examined by
`analyzeGenDecl`; import/const/var specs fall through the type assertion. -/
inductive Spec where
  | typeSpec (ts : TypeSpec)
  | otherSpec
deriving DecidableEq, Repr

/-- One `ast.FuncDecl`: name, optional receiver type name (methods), and the
canonical rendering of its `ast.FuncType` (parameter and result lists —
the receiver is *not* part of `d.Type`). -/
structure FuncDecl where
  name : String
  recv : Option String
  typ : String
deriving DecidableEq, Repr

/-- One top-level declaration, as dispatched by `analyzePackageFiles`'s
type switch; anything else (e.g. `*ast.BadDecl`) is ignored. -/
inductive Decl where
  | genDecl (specs : List Spec)
  | funcDecl (d : FuncDecl)
  | otherDecl
deriving DecidableEq, Repr

/-- Go map assignment `m[k] = v` on the association-list model: replaces the
entry with key `k` when present, appends otherwise (keeps keys unique). -/
def insertEntry (k v : String) : List (String × String) → List (String × String)
  | [] => [(k, v)]
  | (k', v') :: rest =>
      if k' = k then (k, v) :: rest else (k', v') :: insertEntry k v rest

/-- Mirrors `analyzeGenDecl` (src/main.go): every exported `TypeSpec` stores
the canonical rendering of its simplified type under its name. -/
def analyzeGenDecl (specs : List Spec) (exported : Exported) : Exported :=
  specs.foldl
    (fun exported spec =>
      match spec with
      | .typeSpec ts =>
          if isExported ts.name then
            { exported with
                Types := insertEntry ts.name (formatNode (simplifyType ts.typ)) exported.Types }
          else exported
      | .otherSpec => exported)
    exported

/-- Mirrors `analyzeFuncDecl` (src/main.go): an exported function *or method*
stores the rendering of `d.Type` (receiver ignored) under its bare name. -/
def analyzeFuncDecl (d : FuncDecl) (exported : Exported) : Exported :=
  if isExported d.name then
    { exported with Functions := insertEntry d.name d.typ exported.Functions }
  else exported

/-- The body of `analyzePackageFiles`'s declaration switch. -/
def analyzeDecl (exported : Exported) : Decl → Exported
  | .genDecl specs => analyzeGenDecl specs exported
  | .funcDecl d => analyzeFuncDecl d exported
  | .otherDecl => exported

/-- The empty snapshot `analyzePackage` starts from. -/
def emptyExported : Exported := ⟨[], []⟩

/-- Mirrors `analyzePackageFiles`/`analyzePackage` (src/main.go) after a
successful parse: all top-level declarations of all files, flattened into one
processing order. -/
def analyzePackageFiles (decls : List Decl) : Exported :=
  decls.foldl analyzeDecl emptyExported

/-! ### Persisted state (src/main.go `loadState`, `run`) -/

/-- Outcome of opening and gob-decoding the state file, at the collaborator
boundary of `os.Open` and `encoding/gob`. -/
inductive FileRead where
  | missing
  | openFail
  | undecodable
  | content (s : State)
deriving DecidableEq, Repr

/-- The baseline previous state synthesized for a missing state file. -/
def baselineState : State :=
  { Version := "0.0.0", Exported := ⟨[], []⟩ }

/-- Mirrors `loadState` (src/main.go): a missing file yields the baseline
state without error; an open failure or an undecodable file is returned as
an error. -/
def loadState : FileRead → Except String State
  | .missing => .ok baselineState
  | .openFail => .error "opening state file"
  | .undecodable => .error "decoding state file"
  | .content s => .ok s

/-- Mirrors `run` (src/main.go) on the modelled collaborators: load previous
state, snapshot the current package, compute the next version, and return the
printed version together with the newly persisted state.  An `Except.error`
is a fatal failure (`main` exits non-zero). -/
def run (stateFile : FileRead) (decls : List Decl) : Except String (Version × State) :=
  match loadState stateFile with
  | .error e => .error ("loading state: " ++ e)
  | .ok previousState =>
      let currentExported := analyzePackageFiles decls
      let newVersion := calculateVersion previousState currentExported
      .ok (newVersion, { Version := newVersion.string, Exported := currentExported })

/-! ### Spec-side predicates (from the spec's words, for comparison) -/

/-- Well-formedness of a snapshot as a pair of maps: no duplicate keys in
either partition (guaranteed by Go's map type). -/
def Exported.WF (e : Exported) : Prop :=
  (e.Types.map Prod.fst).Nodup ∧ (e.Functions.map Prod.fst).Nodup

/-- Spec §4.3 rule 1, for one partition: some name present in the previous
mapping is absent from the current one or maps to a different signature. -/
def removedOrChanged (previous current : List (String × String)) : Prop :=
  ∃ name sig, previous.lookup name = some sig ∧
    (current.lookup name = none ∨ ∃ sig', current.lookup name = some sig' ∧ sig' ≠ sig)

/-- Spec §4.3 rule 1 (Breaking), over both partitions. -/
def BreakingSpec (previous current : Exported) : Prop :=
  removedOrChanged previous.Types current.Types ∨
    removedOrChanged previous.Functions current.Functions

/-- Spec §4.3 rule 2, for one partition: some name present in the current
mapping is absent from the previous one. -/
def addedName (previous current : List (String × String)) : Prop :=
  ∃ name, (∃ sig, current.lookup name = some sig) ∧ previous.lookup name = none

/-- Spec §4.3 rule 2 (Additive), over both partitions. -/
def AdditiveSpec (previous current : Exported) : Prop :=
  addedName previous.Types current.Types ∨
    addedName previous.Functions current.Functions

/-- Splits a character list on `'.'` (the groups between the dots). -/
def splitDots (cs : List Char) : List (List Char) :=
  cs.foldr
    (fun c acc =>
      match acc with
      | g :: gs => if c = '.' then [] :: g :: gs else (c :: g) :: gs
      | [] => [[c]])
    [[]]

/-- Modelled from the spec's words, for claim C5: the version string is
"exactly three dot-separated non-negative integers". -/
def isThreeDotted (s : String) : Bool :=
  match splitDots s.toList with
  | [a, b, c] =>
      !a.isEmpty && a.all Char.isDigit &&
      !b.isEmpty && b.all Char.isDigit &&
      !c.isEmpty && c.all Char.isDigit
  | _ => false

/-- The (name, normalized signature) pairs a declaration contributes to the
`Types` partition: its exported `TypeSpec`s, in order. -/
def trackedTypes : Decl → List (String × String)
  | .genDecl specs =>
      specs.filterMap fun spec =>
        match spec with
        | .typeSpec ts =>
            if isExported ts.name then
              some (ts.name, formatNode (simplifyType ts.typ))
            else none
        | .otherSpec => none
  | _ => []

/-- The (name, normalized signature) pairs a declaration contributes to the
`Functions` partition. -/
def trackedFunctions : Decl → List (String × String)
  | .funcDecl d => if isExported d.name then [(d.name, d.typ)] else []
  | _ => []

/-- Insertion step shared by both partitions' map updates. -/
def insStep (m : List (String × String)) (p : String × String) : List (String × String) :=
  insertEntry p.1 p.2 m

/-! ### Association-list lemmas -/

theorem lookup_cons (k v : String) (t : List (String × String)) (a : String) :
    ((k, v) :: t).lookup a = if a = k then some v else t.lookup a := by
  simp only [List.lookup]
  split
  · next h => simp [beq_iff_eq.mp h]
  · next h => simp [beq_eq_false_iff_ne.mp h]

theorem lookup_eq_some_of_mem (l : List (String × String))
    (hnd : (l.map Prod.fst).Nodup) {n s : String} (hm : (n, s) ∈ l) :
    l.lookup n = some s := by
  induction l with
  | nil => cases hm
  | cons p t ih =>
    obtain ⟨k, v⟩ := p
    have hnd' : k ∉ t.map Prod.fst ∧ (t.map Prod.fst).Nodup :=
      List.nodup_cons.mp (by simpa using hnd)
    rw [lookup_cons]
    rcases List.mem_cons.mp hm with h | h
    · injection h with h1 h2
      subst h1
      subst h2
      simp
    · have hk : n ≠ k := fun hnk =>
        hnd'.1 (hnk ▸ List.mem_map.mpr ⟨(n, s), h, rfl⟩)
      rw [if_neg hk]
      exact ih hnd'.2 h

theorem mem_of_lookup_eq_some (l : List (String × String)) {n s : String}
    (h : l.lookup n = some s) : (n, s) ∈ l := by
  induction l with
  | nil => simp [List.lookup] at h
  | cons p t ih =>
    obtain ⟨k, v⟩ := p
    rw [lookup_cons] at h
    by_cases hk : n = k
    · rw [if_pos hk] at h
      obtain rfl := Option.some.inj h
      exact hk ▸ List.mem_cons_self _ _
    · rw [if_neg hk] at h
      exact List.mem_cons_of_mem _ (ih h)

theorem lookup_eq_none_iff (l : List (String × String)) (n : String) :
    l.lookup n = none ↔ n ∉ l.map Prod.fst := by
  induction l with
  | nil => simp [List.lookup]
  | cons p t ih =>
    obtain ⟨k, v⟩ := p
    rw [lookup_cons]
    by_cases hk : n = k
    · simp [hk]
    · simp [hk, ih]

/-! ### Wraparound and scanner range lemmas -/

theorem wrap64_eq_self (n : Int) (h1 : -(2 ^ 63) ≤ n) (h2 : n < 2 ^ 63) :
    wrap64 n = n := by
  unfold wrap64
  omega

theorem scanInt_range {cs : List Char} {v : Int} {r : List Char}
    (h : scanInt cs = some (v, r)) : -(2 ^ 63) ≤ v ∧ v < 2 ^ 63 := by
  unfold scanInt at h
  rcases hsign : scanSign (cs.dropWhile isBlank) with ⟨neg, cs'⟩
  simp only [hsign] at h
  split at h
  · exact absurd h (by simp)
  · split at h
    · rename_i hrange
      injection h with h
      injection h with hv hr
      subst hv
      unfold intRangeOk at hrange
      cases neg with
      | true =>
        simp only [if_true, ite_true, decide_eq_true_eq] at hrange ⊢
        constructor <;> omega
      | false =>
        simp only [if_false, Bool.false_eq_true, ite_false, decide_eq_true_eq] at hrange ⊢
        constructor <;> omega
    · exact absurd h (by simp)

theorem sscanf3_range {s : String} {a b c : Int}
    (h : sscanf3 s = some (a, b, c)) :
    (-(2 ^ 63) ≤ a ∧ a < 2 ^ 63) ∧ (-(2 ^ 63) ≤ b ∧ b < 2 ^ 63) ∧
      (-(2 ^ 63) ≤ c ∧ c < 2 ^ 63) := by
  unfold sscanf3 at h
  split at h
  · exact absurd h (by simp)
  · rename_i a' r1 hscan1
    split at h
    · exact absurd h (by simp)
    · split at h
      · exact absurd h (by simp)
      · rename_i b' r2 hscan2
        split at h
        · exact absurd h (by simp)
        · split at h
          · exact absurd h (by simp)
          · rename_i c' r3 hscan3
            injection h with h
            injection h with ha h
            injection h with hb hc
            subst ha
            subst hb
            subst hc
            exact ⟨scanInt_range hscan1, scanInt_range hscan2, scanInt_range hscan3⟩

theorem parseVersion_range (s : String) :
    (-(2 ^ 63) ≤ (parseVersion s).Major ∧ (parseVersion s).Major < 2 ^ 63) ∧
    (-(2 ^ 63) ≤ (parseVersion s).Minor ∧ (parseVersion s).Minor < 2 ^ 63) ∧
    (-(2 ^ 63) ≤ (parseVersion s).Patch ∧ (parseVersion s).Patch < 2 ^ 63) := by
  unfold parseVersion
  split
  · rename_i a b c hs
    exact sscanf3_range hs
  · refine ⟨⟨?_, ?_⟩, ⟨?_, ?_⟩, ⟨?_, ?_⟩⟩ <;> norm_num

/-! ### Diff-classifier characterization lemmas (claim C3's partitions) -/

theorem any_removedOrChanged_iff (previous current : List (String × String))
    (hnd : (previous.map Prod.fst).Nodup) :
    (previous.any fun p =>
      match current.lookup p.1 with
      | none => true
      | some currentType => currentType != p.2) = true ↔
    removedOrChanged previous current := by
  rw [List.any_eq_true]
  constructor
  · rintro ⟨⟨n, s⟩, hm, hp⟩
    refine ⟨n, s, lookup_eq_some_of_mem previous hnd hm, ?_⟩
    have hp' : (match current.lookup n with
      | none => true
      | some currentType => currentType != s) = true := hp
    cases hc : current.lookup n with
    | none => exact Or.inl rfl
    | some c =>
      rw [hc] at hp'
      exact Or.inr ⟨c, rfl, by simpa using hp'⟩
  · rintro ⟨n, s, hl, hdiff⟩
    refine ⟨(n, s), mem_of_lookup_eq_some previous hl, ?_⟩
    rcases hdiff with hc | ⟨s', hc, hne⟩
    · simp [hc]
    · simp [hc, hne]

theorem any_added_iff (previous current : List (String × String)) :
    (current.any fun p => (previous.lookup p.1).isNone) = true ↔
    addedName previous current := by
  rw [List.any_eq_true]
  constructor
  · rintro ⟨⟨n, s⟩, hm, hp⟩
    have hcur : current.lookup n ≠ none := fun h =>
      (lookup_eq_none_iff current n).mp h (List.mem_map.mpr ⟨(n, s), hm, rfl⟩)
    cases hc : current.lookup n with
    | none => exact absurd hc hcur
    | some c =>
      exact ⟨n, ⟨c, hc⟩, by simpa using hp⟩
  · rintro ⟨n, ⟨s, hc⟩, hnone⟩
    exact ⟨(n, s), mem_of_lookup_eq_some current hc, by simp [hnone]⟩

/-! ### Claim theorems -/

/-- C1 counterexample: `parseVersion` accepts Major = 2^63 - 1, and on a
Breaking diff Go's `int` increment wraps: `calculateVersion` returns
`(-2^63, 0, 0)`, not `(Major + 1, 0, 0)`. -/
theorem calculateVersion_overflow_cex :
    sscanf3 "9223372036854775807.0.0" = some (9223372036854775807, 0, 0) ∧
    classify ⟨[("Old", "t")], []⟩ emptyExported = .Breaking ∧
    calculateVersion (State.mk "9223372036854775807.0.0" ⟨[("Old", "t")], []⟩)
      emptyExported = ⟨-9223372036854775808, 0, 0⟩ ∧
    (-9223372036854775808 : Int) ≠ 9223372036854775807 + 1 := by decide

/-- C1 (amended): when the previous state's version string scans as a triple
`(M, m, p)` *and the component about to be incremented is below the 64-bit
boundary `2^63 - 1`*, `calculateVersion` returns `(M+1, 0, 0)` on a Breaking
diff, `(M, m+1, 0)` on an Additive diff, and `(M, m, p+1)` on NoChange; at
exactly `2^63 - 1` the incremented component wraps to `-2^63` instead. -/
theorem calculateVersion_by_classification (previousState : State)
    (currentExported : Exported) (M m p : Int)
    (h : sscanf3 previousState.Version = some (M, m, p))
    (hM : M < 2 ^ 63 - 1) (hm : m < 2 ^ 63 - 1) (hp : p < 2 ^ 63 - 1) :
    (classify previousState.Exported currentExported = .Breaking →
      calculateVersion previousState currentExported = ⟨M + 1, 0, 0⟩) ∧
    (classify previousState.Exported currentExported = .Additive →
      calculateVersion previousState currentExported = ⟨M, m + 1, 0⟩) ∧
    (classify previousState.Exported currentExported = .NoChange →
      calculateVersion previousState currentExported = ⟨M, m, p + 1⟩) := by
  obtain ⟨⟨hM0, _⟩, ⟨hm0, _⟩, ⟨hp0, _⟩⟩ := sscanf3_range h
  have hv : parseVersion previousState.Version = ⟨M, m, p⟩ := by
    unfold parseVersion
    rw [h]
  have hwM : wrap64 (M + 1) = M + 1 := wrap64_eq_self _ (by omega) (by omega)
  have hwm : wrap64 (m + 1) = m + 1 := wrap64_eq_self _ (by omega) (by omega)
  have hwp : wrap64 (p + 1) = p + 1 := wrap64_eq_self _ (by omega) (by omega)
  by_cases h1 : hasBreakingChanges previousState.Exported currentExported
  · simp [calculateVersion, classify, hv, h1, hwM, hwm, hwp]
  · by_cases h2 : hasNewFeatures previousState.Exported currentExported
    · simp [calculateVersion, classify, hv, h1, h2, hwM, hwm, hwp]
    · simp [calculateVersion, classify, hv, h1, h2, hwM, hwm, hwp]

/-- Witness for C1 at a concrete additive run. -/
theorem calculateVersion_by_classification_witness :
    sscanf3 (State.mk "1.2.3" ⟨[], []⟩).Version = some (1, 2, 3) ∧
    (classify (State.mk "1.2.3" ⟨[], []⟩).Exported ⟨[("A", "int")], []⟩ = .Additive →
      calculateVersion (State.mk "1.2.3" ⟨[], []⟩) ⟨[("A", "int")], []⟩ = ⟨1, 3, 0⟩) :=
  ⟨by decide,
    (calculateVersion_by_classification (State.mk "1.2.3" ⟨[], []⟩)
      ⟨[("A", "int")], []⟩ 1 2 3 (by decide) (by decide) (by decide) (by decide)).2.1⟩

/-- C2 counterexample: at previous version `9223372036854775807.0.0` a
Breaking diff wraps Major to `-2^63`, so the computed next version is *not*
strictly greater than the previous one. -/
theorem calculateVersion_wraparound_cex :
    classify ⟨[("Old", "t")], []⟩ emptyExported = .Breaking ∧
    ¬ Version.lt
      (parseVersion (State.mk "9223372036854775807.0.0" ⟨[("Old", "t")], []⟩).Version)
      (calculateVersion (State.mk "9223372036854775807.0.0" ⟨[("Old", "t")], []⟩)
        emptyExported) := by decide

/-- C2 (amended): the computed next version is strictly greater than the
parsed previous version under lexicographic order, for every previous state
whose parsed components are below the 64-bit boundary `2^63 - 1` (every
state a non-adversarial history can reach) and every current snapshot; at
the boundary Go's `int` increment wraps and monotonicity fails. -/
theorem calculateVersion_strictly_increases (previousState : State)
    (currentExported : Exported)
    (hM : (parseVersion previousState.Version).Major < 2 ^ 63 - 1)
    (hm : (parseVersion previousState.Version).Minor < 2 ^ 63 - 1)
    (hp : (parseVersion previousState.Version).Patch < 2 ^ 63 - 1) :
    Version.lt (parseVersion previousState.Version)
      (calculateVersion previousState currentExported) := by
  obtain ⟨⟨hM0, _⟩, ⟨hm0, _⟩, ⟨hp0, _⟩⟩ := parseVersion_range previousState.Version
  have lt1 : ∀ v : Version, Version.lt v ⟨v.Major + 1, 0, 0⟩ := fun v =>
    Or.inl (show v.Major < v.Major + 1 by omega)
  have lt2 : ∀ v : Version, Version.lt v ⟨v.Major, v.Minor + 1, 0⟩ := fun v =>
    Or.inr ⟨rfl, Or.inl (show v.Minor < v.Minor + 1 by omega)⟩
  have lt3 : ∀ v : Version, Version.lt v ⟨v.Major, v.Minor, v.Patch + 1⟩ := fun v =>
    Or.inr ⟨rfl, Or.inr ⟨rfl, show v.Patch < v.Patch + 1 by omega⟩⟩
  by_cases h1 : hasBreakingChanges previousState.Exported currentExported
  · have he : calculateVersion previousState currentExported =
        ⟨(parseVersion previousState.Version).Major + 1, 0, 0⟩ := by
      simp [calculateVersion, h1, wrap64_eq_self _ (by omega : -(2 ^ 63) ≤
        (parseVersion previousState.Version).Major + 1) (by omega)]
    rw [he]
    exact lt1 _
  · by_cases h2 : hasNewFeatures previousState.Exported currentExported
    · have he : calculateVersion previousState currentExported =
          ⟨(parseVersion previousState.Version).Major,
            (parseVersion previousState.Version).Minor + 1, 0⟩ := by
        simp [calculateVersion, h1, h2, wrap64_eq_self _ (by omega : -(2 ^ 63) ≤
          (parseVersion previousState.Version).Minor + 1) (by omega)]
      rw [he]
      exact lt2 _
    · have he : calculateVersion previousState currentExported =
          ⟨(parseVersion previousState.Version).Major,
            (parseVersion previousState.Version).Minor,
            (parseVersion previousState.Version).Patch + 1⟩ := by
        simp [calculateVersion, h1, h2, wrap64_eq_self _ (by omega : -(2 ^ 63) ≤
          (parseVersion previousState.Version).Patch + 1) (by omega)]
      rw [he]
      exact lt3 _

/-- Witness for C2's amended theorem at a no-change re-run. -/
theorem calculateVersion_strictly_increases_witness :
    Version.lt (parseVersion (State.mk "1.2.3" ⟨[], []⟩).Version)
      (calculateVersion (State.mk "1.2.3" ⟨[], []⟩) emptyExported) :=
  calculateVersion_strictly_increases (State.mk "1.2.3" ⟨[], []⟩) emptyExported
    (by decide) (by decide) (by decide)

/-- C3: the classification is Breaking iff something previously exported was
removed or changed; Additive iff not Breaking and something was added;
NoChange iff neither — in particular two empty snapshots are NoChange. -/
theorem classify_characterization (previous current : Exported)
    (hp : previous.WF) (hc : current.WF) :
    (classify previous current = .Breaking ↔ BreakingSpec previous current) ∧
    (classify previous current = .Additive ↔
      ¬ BreakingSpec previous current ∧ AdditiveSpec previous current) ∧
    (classify previous current = .NoChange ↔
      ¬ BreakingSpec previous current ∧ ¬ AdditiveSpec previous current) := by
  obtain ⟨hpT, hpF⟩ := hp
  have hB : hasBreakingChanges previous current = true ↔ BreakingSpec previous current := by
    unfold hasBreakingChanges BreakingSpec
    rw [Bool.or_eq_true, any_removedOrChanged_iff _ _ hpT,
      any_removedOrChanged_iff _ _ hpF]
  have hA : hasNewFeatures previous current = true ↔ AdditiveSpec previous current := by
    unfold hasNewFeatures AdditiveSpec
    rw [Bool.or_eq_true, any_added_iff, any_added_iff]
  by_cases h1 : hasBreakingChanges previous current
  · have hBS := hB.mp h1
    refine ⟨⟨fun _ => hBS, fun _ => by simp [classify, h1]⟩,
      ⟨fun hcl => ?_, fun h => absurd hBS h.1⟩,
      ⟨fun hcl => ?_, fun h => absurd hBS h.1⟩⟩
    · simp [classify, h1] at hcl
    · simp [classify, h1] at hcl
  · have hnBS : ¬ BreakingSpec previous current := fun hBS => h1 (hB.mpr hBS)
    by_cases h2 : hasNewFeatures previous current
    · have hAS := hA.mp h2
      refine ⟨⟨fun hcl => ?_, fun hBS => absurd hBS hnBS⟩,
        ⟨fun _ => ⟨hnBS, hAS⟩, fun _ => by simp [classify, h1, h2]⟩,
        ⟨fun hcl => ?_, fun h => absurd hAS h.2⟩⟩
      · simp [classify, h1, h2] at hcl
      · simp [classify, h1, h2] at hcl
    · have hnAS : ¬ AdditiveSpec previous current := fun hAS => h2 (hA.mpr hAS)
      refine ⟨⟨fun hcl => ?_, fun hBS => absurd hBS hnBS⟩,
        ⟨fun hcl => ?_, fun h => absurd h.2 hnAS⟩,
        ⟨fun _ => ⟨hnBS, hnAS⟩, fun _ => by simp [classify, h1, h2]⟩⟩
      · simp [classify, h1, h2] at hcl
      · simp [classify, h1, h2] at hcl

/-- Witness for C3 at the two empty snapshots. -/
theorem classify_characterization_witness :
    classify emptyExported emptyExported = .NoChange ↔
      ¬ BreakingSpec emptyExported emptyExported ∧
        ¬ AdditiveSpec emptyExported emptyExported :=
  (classify_characterization emptyExported emptyExported
    ⟨List.nodup_nil, List.nodup_nil⟩ ⟨List.nodup_nil, List.nodup_nil⟩).2.2

/-- C4: a run that removes one previously exported name and adds another is
classified Breaking and takes the Major-bump branch (Major incremented with
Go's wrapping `int` arithmetic, Minor and Patch zeroed) — never Additive. -/
theorem simultaneous_remove_add_is_breaking (previousState : State)
    (currentExported : Exported)
    (hremoved :
      (∃ n s, (n, s) ∈ previousState.Exported.Types ∧
        currentExported.Types.lookup n = none) ∨
      (∃ n s, (n, s) ∈ previousState.Exported.Functions ∧
        currentExported.Functions.lookup n = none))
    (hadded :
      (∃ n s, (n, s) ∈ currentExported.Types ∧
        previousState.Exported.Types.lookup n = none) ∨
      (∃ n s, (n, s) ∈ currentExported.Functions ∧
        previousState.Exported.Functions.lookup n = none)) :
    classify previousState.Exported currentExported = .Breaking ∧
    calculateVersion previousState currentExported =
      ⟨wrap64 ((parseVersion previousState.Version).Major + 1), 0, 0⟩ := by
  have hB : hasBreakingChanges previousState.Exported currentExported = true := by
    unfold hasBreakingChanges
    rw [Bool.or_eq_true]
    rcases hremoved with ⟨n, s, hm, hnone⟩ | ⟨n, s, hm, hnone⟩
    · exact Or.inl (List.any_eq_true.mpr ⟨(n, s), hm, by simp [hnone]⟩)
    · exact Or.inr (List.any_eq_true.mpr ⟨(n, s), hm, by simp [hnone]⟩)
  exact ⟨by simp [classify, hB], by simp [calculateVersion, hB]⟩

/-- Witness for C4: a rename-like run (one removal plus one addition). -/
theorem simultaneous_remove_add_is_breaking_witness :
    classify ⟨[("Old", "t")], []⟩ ⟨[("New", "u")], []⟩ = .Breaking ∧
    calculateVersion ⟨"0.1.0", ⟨[("Old", "t")], []⟩⟩ ⟨[("New", "u")], []⟩ =
      ⟨wrap64 ((parseVersion (State.mk "0.1.0" ⟨[("Old", "t")], []⟩).Version).Major + 1),
        0, 0⟩ :=
  simultaneous_remove_add_is_breaking ⟨"0.1.0", ⟨[("Old", "t")], []⟩⟩
    ⟨[("New", "u")], []⟩
    (Or.inl ⟨"Old", "t", by decide, by decide⟩)
    (Or.inl ⟨"New", "u", by decide, by decide⟩)

/-! ### Version-scanner lemmas (claim C5) -/

theorem digit_not_blank (c : Char) (h : c.isDigit = true) : isBlank c = false := by
  by_cases h1 : c = ' '
  · exact absurd (h1 ▸ h) (by decide)
  · by_cases h2 : c = '\t'
    · exact absurd (h2 ▸ h) (by decide)
    · simp [isBlank, h1, h2]

theorem takeWhile_digits_append (d r : List Char)
    (hd : ∀ c ∈ d, c.isDigit = true)
    (hr : ∀ c, r.head? = some c → c.isDigit = false) :
    (d ++ r).takeWhile Char.isDigit = d ∧ (d ++ r).dropWhile Char.isDigit = r := by
  induction d with
  | nil =>
    simp only [List.nil_append]
    cases r with
    | nil => simp
    | cons c t =>
      have hc := hr c rfl
      simp [List.takeWhile_cons, List.dropWhile_cons, hc]
  | cons c d ih =>
    have hc : c.isDigit = true := hd c (List.mem_cons_self _ _)
    have ih' := ih (fun x hx => hd x (List.mem_cons_of_mem _ hx))
    simp [List.takeWhile_cons, List.dropWhile_cons, hc, ih'.1, ih'.2]

theorem scanInt_digits (c0 : Char) (d r : List Char)
    (hd : ∀ c ∈ c0 :: d, c.isDigit = true)
    (hr : ∀ c, r.head? = some c → c.isDigit = false)
    (hbound : digitsToNat (c0 :: d) < 2 ^ 63) :
    scanInt ((c0 :: d) ++ r) = some ((digitsToNat (c0 :: d) : Int), r) := by
  have hc0 := hd c0 (List.mem_cons_self _ _)
  have hblank := digit_not_blank c0 hc0
  have hm : c0 ≠ '-' := fun h => absurd (h ▸ hc0) (by decide)
  have hp : c0 ≠ '+' := fun h => absurd (h ▸ hc0) (by decide)
  have htake := (takeWhile_digits_append (c0 :: d) r hd hr).1
  have hdrop := (takeWhile_digits_append (c0 :: d) r hd hr).2
  rw [List.cons_append] at htake hdrop
  unfold scanInt
  rw [List.cons_append, List.dropWhile_cons]
  simp only [hblank, Bool.false_eq_true, if_false, scanSign, hm, hp, ite_false]
  simp only [htake, hdrop, List.isEmpty_cons, intRangeOk, if_false,
    Bool.false_eq_true, hbound, decide_eq_true_eq, if_true, ite_true, if_pos hbound]

theorem dot_not_digit (x : List Char) :
    ∀ c, ('.' :: x).head? = some c → c.isDigit = false := by
  intro c hc
  injection hc with h
  subst h
  decide

/-- C5 (amended): `parseVersion` scans a `%d.%d.%d` *prefix*: any string that
begins with three dot-separated digit runs (values in 64-bit range) yields
the scanned triple, whatever follows the third run — trailing characters are
ignored rather than forcing the baseline.  With `r = []` this covers every
string that is exactly three dot-separated non-negative integers. -/
theorem parseVersion_scans_prefix (d1 d2 d3 r : List Char)
    (h1 : d1 ≠ []) (hd1 : ∀ c ∈ d1, c.isDigit = true) (hb1 : digitsToNat d1 < 2 ^ 63)
    (h2 : d2 ≠ []) (hd2 : ∀ c ∈ d2, c.isDigit = true) (hb2 : digitsToNat d2 < 2 ^ 63)
    (h3 : d3 ≠ []) (hd3 : ∀ c ∈ d3, c.isDigit = true) (hb3 : digitsToNat d3 < 2 ^ 63)
    (hr : ∀ c, r.head? = some c → c.isDigit = false) :
    parseVersion ⟨d1 ++ '.' :: (d2 ++ '.' :: (d3 ++ r))⟩ =
      ⟨(digitsToNat d1 : Int), (digitsToNat d2 : Int), (digitsToNat d3 : Int)⟩ := by
  obtain ⟨c1, t1, rfl⟩ := List.exists_cons_of_ne_nil h1
  obtain ⟨c2, t2, rfl⟩ := List.exists_cons_of_ne_nil h2
  obtain ⟨c3, t3, rfl⟩ := List.exists_cons_of_ne_nil h3
  have hs1 := scanInt_digits c1 t1 ('.' :: ((c2 :: t2) ++ '.' :: ((c3 :: t3) ++ r)))
    hd1 (fun c hc => dot_not_digit _ c hc) hb1
  have hs2 := scanInt_digits c2 t2 ('.' :: ((c3 :: t3) ++ r))
    hd2 (fun c hc => dot_not_digit _ c hc) hb2
  have hs3 := scanInt_digits c3 t3 r hd3 hr hb3
  unfold parseVersion sscanf3
  rw [show String.toList ⟨(c1 :: t1) ++ '.' :: ((c2 :: t2) ++ '.' :: ((c3 :: t3) ++ r))⟩ =
        (c1 :: t1) ++ '.' :: ((c2 :: t2) ++ '.' :: ((c3 :: t3) ++ r)) from rfl]
  simp only [hs1, hs2, hs3, expectChar, beq_self_eq_true, if_true, ite_true]

/-- Witness for C5's amended theorem at the exact triple "1.2.3". -/
theorem parseVersion_scans_prefix_witness :
    parseVersion ⟨['1'] ++ '.' :: (['2'] ++ '.' :: (['3'] ++ []))⟩ =
      ⟨(digitsToNat ['1'] : Int), (digitsToNat ['2'] : Int), (digitsToNat ['3'] : Int)⟩ :=
  parseVersion_scans_prefix ['1'] ['2'] ['3'] []
    (by decide) (by decide) (by decide)
    (by decide) (by decide) (by decide)
    (by decide) (by decide) (by decide)
    (fun _ hc => nomatch hc)

/-- C5 counterexample: "1.2.3.4" is not exactly three dot-separated
non-negative integers, yet `parseVersion` does not substitute the baseline —
it returns `(1, 2, 3)` from the scanned prefix. -/
theorem parseVersion_trailing_junk_cex :
    isThreeDotted "1.2.3.4" = false ∧
    parseVersion "1.2.3.4" = ⟨1, 2, 3⟩ ∧
    (⟨1, 2, 3⟩ : Version) ≠ ⟨0, 0, 0⟩ := by decide

/-! ### Persisted-state claims (C6) -/

/-- C6 counterexample: an undecodable state file is *not* absorbed as the
baseline state — `loadState` returns an error and the run aborts. -/
theorem undecodable_state_aborts_cex :
    run FileRead.undecodable [] = Except.error "loading state: decoding state file" ∧
    loadState FileRead.undecodable ≠ Except.ok baselineState :=
  ⟨rfl, fun h => Except.noConfusion h⟩

/-- C6 (amended): a missing state file yields the baseline state (version
"0.0.0", empty mappings) without error; a present but undecodable state file
makes the run fail with an error; only a decodable state (whatever its
version string — `parseVersion` handles malformed ones) lets the run
proceed. -/
theorem loadState_policy (s : State) (decls : List Decl) :
    loadState FileRead.missing = Except.ok baselineState ∧
    (∃ e, run FileRead.undecodable decls = Except.error e) ∧
    (∃ v st, run (FileRead.content s) decls = Except.ok (v, st)) :=
  ⟨rfl, ⟨"loading state: decoding state file", rfl⟩, ⟨_, _, rfl⟩⟩

/-! ### Struct-field filtering (claims C7 and C10) and methods (claim C8) -/

theorem lookup_insertEntry (k v : String) (l : List (String × String)) (a : String) :
    (insertEntry k v l).lookup a = if a = k then some v else l.lookup a := by
  induction l with
  | nil => simp [insertEntry, lookup_cons]
  | cons p t ih =>
    obtain ⟨k', v'⟩ := p
    unfold insertEntry
    by_cases hk : k' = k
    · rw [if_pos hk]
      subst hk
      rw [lookup_cons, lookup_cons]
      by_cases ha : a = k' <;> simp [ha]
    · rw [if_neg hk]
      rw [lookup_cons, lookup_cons, ih]
      by_cases ha : a = k'
      · have hak : a ≠ k := fun h => hk (by rw [← ha, h])
        simp [ha, hak, hk]
      · simp [ha]

/-- C8 counterexample: a method's stored normalized signature is `d.Type`'s
rendering alone — it is not the receiver type name concatenated with the
signature, and two same-named methods on different receiver types store
identical entries. -/
theorem analyzeFuncDecl_receiver_ignored_cex :
    (analyzeFuncDecl ⟨"M", some "T", "func()"⟩ emptyExported).Functions.lookup "M" =
      some "func()" ∧
    ("func()" : String) ≠ "T" ++ "func()" ∧
    analyzeFuncDecl ⟨"M", some "T", "func()"⟩ emptyExported =
      analyzeFuncDecl ⟨"M", some "U", "func()"⟩ emptyExported := by decide

/-- C8 (amended): an exported method is recorded in the callables partition
keyed by its bare name, with the rendering of its parameter/result lists as
the signature; the receiver type influences neither the key nor the stored
signature. -/
theorem analyzeFuncDecl_spec (d : FuncDecl) (exported : Exported)
    (h : isExported d.name = true) :
    (analyzeFuncDecl d exported).Functions.lookup d.name = some d.typ ∧
    ∀ recv', analyzeFuncDecl { d with recv := recv' } exported =
      analyzeFuncDecl d exported := by
  constructor
  · simp only [analyzeFuncDecl, h, if_true, ite_true]
    rw [lookup_insertEntry]
    simp
  · intro recv'
    simp [analyzeFuncDecl]

/-- Witness for C8's amended theorem: a concrete exported method. -/
theorem analyzeFuncDecl_spec_witness :
    (analyzeFuncDecl ⟨"M", some "T", "func(a int) int"⟩ emptyExported).Functions.lookup "M" =
      some "func(a int) int" :=
  (analyzeFuncDecl_spec ⟨"M", some "T", "func(a int) int"⟩ emptyExported (by decide)).1

/-- C10: retention of a struct field is decided solely by its first declared
name — a nameless (embedded) field is always dropped, whatever its type; a
field whose first name is exported is retained verbatim (with all its names);
a field whose first name is not exported is dropped regardless of later
names. -/
theorem field_retention_by_first_name (fields : List Field) :
    (∀ f ∈ fields, f.names = [] →
      f ∉ structFields (simplifyType (.structType fields))) ∧
    (∀ f ∈ fields, ∀ n rest, f.names = n :: rest → isExported n = true →
      f ∈ structFields (simplifyType (.structType fields))) ∧
    (∀ f ∈ fields, ∀ n rest, f.names = n :: rest → isExported n = false →
      f ∉ structFields (simplifyType (.structType fields))) := by
  refine ⟨?_, ?_, ?_⟩
  · intro f hf hn hmem
    have hmem' : f ∈ fields.filter keepField := hmem
    have := (List.mem_filter.mp hmem').2
    simp [keepField, hn] at this
  · intro f hf n rest hn hexp
    show f ∈ fields.filter keepField
    exact List.mem_filter.mpr ⟨hf, by simp [keepField, hn, hexp]⟩
  · intro f hf n rest hn hexp hmem
    have hmem' : f ∈ fields.filter keepField := hmem
    have := (List.mem_filter.mp hmem').2
    simp [keepField, hn, hexp] at this

/-- Witness for C10: an embedded field with an exported type name is
dropped. -/
theorem field_retention_by_first_name_witness :
    (Field.mk [] "PublicType") ∉
      structFields (simplifyType (.structType [⟨[], "PublicType"⟩])) :=
  (field_retention_by_first_name [⟨[], "PublicType"⟩]).1 _ (List.mem_singleton.mpr rfl) rfl

/-- C7 counterexample: `struct {A, b int}` and `struct {A int}` differ only
in the non-public member `b`, yet they normalize to different signatures —
the non-public name `b` survives in the retained field group. -/
theorem simplifyType_nonpublic_influences_cex :
    formatNode (simplifyType (.structType [⟨["A", "b"], "int"⟩])) ≠
      formatNode (simplifyType (.structType [⟨["A"], "int"⟩])) ∧
    structFields (simplifyType (.structType [⟨["A", "b"], "int"⟩])) =
      [⟨["A", "b"], "int"⟩] := by decide

/-- C7 (amended): when every field group declares exactly one name, the
normalized struct retains exactly the public-named members in declared order,
and two structs with the same public members normalize to the same
signature. -/
theorem simplifyType_public_members (fs1 fs2 : List Field)
    (hone1 : ∀ f ∈ fs1, f.names.length = 1)
    (hone2 : ∀ f ∈ fs2, f.names.length = 1)
    (hsame : fs1.filter (fun f => f.names.all isExported) =
      fs2.filter (fun f => f.names.all isExported)) :
    structFields (simplifyType (.structType fs1)) =
      fs1.filter (fun f => f.names.all isExported) ∧
    formatNode (simplifyType (.structType fs1)) =
      formatNode (simplifyType (.structType fs2)) := by
  have key : ∀ (fs : List Field), (∀ f ∈ fs, f.names.length = 1) →
      fs.filter keepField = fs.filter (fun f => f.names.all isExported) := by
    intro fs hone
    apply List.filter_congr
    intro f hf
    obtain ⟨n, hn⟩ := List.length_eq_one.mp (hone f hf)
    simp [keepField, hn]
  constructor
  · show fs1.filter keepField = _
    rw [key fs1 hone1]
  · show formatNode (.structType (fs1.filter keepField)) =
      formatNode (.structType (fs2.filter keepField))
    rw [key fs1 hone1, key fs2 hone2, hsame]

/-- Witness for C7's amended theorem: adding only a non-public single-name
member does not change the normalized signature. -/
theorem simplifyType_public_members_witness :
    structFields (simplifyType (.structType [⟨["Name"], "string"⟩, ⟨["age"], "int"⟩])) =
      [Field.mk ["Name"] "string", Field.mk ["age"] "int"].filter
        (fun f => f.names.all isExported) ∧
    formatNode (simplifyType (.structType [⟨["Name"], "string"⟩, ⟨["age"], "int"⟩])) =
      formatNode (simplifyType (.structType [⟨["Name"], "string"⟩])) :=
  simplifyType_public_members _ _ (by decide) (by decide) (by decide)

/-! ### Snapshot-builder order independence (claim C9) -/

theorem lookup_append (l1 l2 : List (String × String)) (a : String) :
    (l1 ++ l2).lookup a = (l1.lookup a).or (l2.lookup a) := by
  induction l1 with
  | nil => simp [List.lookup]
  | cons p t ih =>
    obtain ⟨k, v⟩ := p
    rw [List.cons_append, lookup_cons, lookup_cons]
    by_cases ha : a = k
    · simp [ha]
    · simp [ha, ih]

theorem foldl_insStep_lookup (pairs acc : List (String × String)) (a : String) :
    (pairs.foldl insStep acc).lookup a = (pairs.reverse.lookup a).or (acc.lookup a) := by
  induction pairs generalizing acc with
  | nil => simp [List.lookup]
  | cons p t ih =>
    obtain ⟨k, v⟩ := p
    rw [List.foldl_cons, ih, List.reverse_cons, lookup_append, Option.or_assoc]
    congr 1
    rw [show insStep acc (k, v) = insertEntry k v acc from rfl, lookup_insertEntry,
      lookup_cons]
    by_cases ha : a = k
    · simp [ha]
    · simp [ha, List.lookup]

theorem analyzeGenDecl_Types (specs : List Spec) (acc : Exported) :
    (analyzeGenDecl specs acc).Types =
      (trackedTypes (.genDecl specs)).foldl insStep acc.Types := by
  induction specs generalizing acc with
  | nil => rfl
  | cons s t ih =>
    cases s with
    | typeSpec ts =>
      by_cases h : isExported ts.name
      · simp only [analyzeGenDecl, trackedTypes, List.foldl_cons, List.filterMap_cons,
          h, if_true, ite_true]
        exact ih _
      · simp only [analyzeGenDecl, trackedTypes, List.foldl_cons, List.filterMap_cons,
          h, if_false, Bool.false_eq_true, ite_false]
        exact ih _
    | otherSpec =>
      simp only [analyzeGenDecl, trackedTypes, List.foldl_cons, List.filterMap_cons]
      exact ih _

theorem analyzeGenDecl_Functions (specs : List Spec) (acc : Exported) :
    (analyzeGenDecl specs acc).Functions = acc.Functions := by
  induction specs generalizing acc with
  | nil => rfl
  | cons s t ih =>
    cases s with
    | typeSpec ts =>
      by_cases h : isExported ts.name
      · simp only [analyzeGenDecl, List.foldl_cons, h, if_true, ite_true]
        exact ih _
      · simp only [analyzeGenDecl, List.foldl_cons, h, if_false, Bool.false_eq_true,
          ite_false]
        exact ih _
    | otherSpec =>
      simp only [analyzeGenDecl, List.foldl_cons]
      exact ih _

theorem analyzeDecl_Types (acc : Exported) (d : Decl) :
    (analyzeDecl acc d).Types = (trackedTypes d).foldl insStep acc.Types := by
  cases d with
  | genDecl specs => exact analyzeGenDecl_Types specs acc
  | funcDecl f =>
    by_cases h : isExported f.name
    · simp only [analyzeDecl, analyzeFuncDecl, trackedTypes, h, if_true, ite_true,
        List.foldl_nil]
    · simp only [analyzeDecl, analyzeFuncDecl, trackedTypes, h, if_false,
        Bool.false_eq_true, ite_false, List.foldl_nil]
  | otherDecl => rfl

theorem analyzeDecl_Functions (acc : Exported) (d : Decl) :
    (analyzeDecl acc d).Functions = (trackedFunctions d).foldl insStep acc.Functions := by
  cases d with
  | genDecl specs =>
    rw [show analyzeDecl acc (.genDecl specs) = analyzeGenDecl specs acc from rfl,
      analyzeGenDecl_Functions]
    rfl
  | funcDecl f =>
    by_cases h : isExported f.name
    · simp only [analyzeDecl, analyzeFuncDecl, trackedFunctions, h, if_true, ite_true,
        List.foldl_cons, List.foldl_nil]
      rfl
    · simp only [analyzeDecl, analyzeFuncDecl, trackedFunctions, h, if_false,
        Bool.false_eq_true, ite_false, List.foldl_nil]
  | otherDecl => rfl

theorem foldl_analyzeDecl_Types (decls : List Decl) (acc : Exported) :
    (decls.foldl analyzeDecl acc).Types =
      (decls.flatMap trackedTypes).foldl insStep acc.Types := by
  induction decls generalizing acc with
  | nil => rfl
  | cons d t ih =>
    rw [List.foldl_cons, ih, List.flatMap_cons, List.foldl_append, analyzeDecl_Types]

theorem foldl_analyzeDecl_Functions (decls : List Decl) (acc : Exported) :
    (decls.foldl analyzeDecl acc).Functions =
      (decls.flatMap trackedFunctions).foldl insStep acc.Functions := by
  induction decls generalizing acc with
  | nil => rfl
  | cons d t ih =>
    rw [List.foldl_cons, ih, List.flatMap_cons, List.foldl_append, analyzeDecl_Functions]

theorem lookup_perm {l1 l2 : List (String × String)} (h : l1.Perm l2) (a : String) :
    (l1.map Prod.fst).Nodup → l1.lookup a = l2.lookup a := by
  induction h with
  | nil => exact fun _ => rfl
  | cons x h ih =>
    intro hnd
    obtain ⟨k, v⟩ := x
    rw [List.map_cons] at hnd
    have hnd' := (List.nodup_cons.mp hnd).2
    rw [lookup_cons, lookup_cons]
    by_cases ha : a = k
    · simp [ha]
    · simp [ha, ih hnd']
  | swap x y t =>
    intro hnd
    obtain ⟨k1, v1⟩ := x
    obtain ⟨k2, v2⟩ := y
    rw [List.map_cons, List.map_cons] at hnd
    have hne : k2 ≠ k1 := fun h =>
      (List.nodup_cons.mp hnd).1 (h ▸ List.mem_cons_self _ _)
    rw [lookup_cons, lookup_cons, lookup_cons, lookup_cons]
    by_cases h1 : a = k2
    · have h2 : a ≠ k1 := fun h2 => hne (h1.symm.trans h2)
      simp [h1, h2, hne]
    · by_cases h2 : a = k1
      · simp [h1, h2, hne.symm]
      · simp [h1, h2]
  | trans h1 h2 ih1 ih2 =>
    intro hnd
    exact (ih1 hnd).trans (ih2 ((h1.map Prod.fst).nodup_iff.mp hnd))

/-- C9: when no two tracked declarations in the same partition share a name,
any two processing orders of the same declarations produce snapshots that
agree, as mappings, on every name in both partitions. -/
theorem analyzePackageFiles_order_independent (decls1 decls2 : List Decl)
    (hperm : decls1.Perm decls2)
    (hT : ((decls1.flatMap trackedTypes).map Prod.fst).Nodup)
    (hF : ((decls1.flatMap trackedFunctions).map Prod.fst).Nodup)
    (name : String) :
    (analyzePackageFiles decls1).Types.lookup name =
      (analyzePackageFiles decls2).Types.lookup name ∧
    (analyzePackageFiles decls1).Functions.lookup name =
      (analyzePackageFiles decls2).Functions.lookup name := by
  have key : ∀ (f : Decl → List (String × String)),
      ((decls1.flatMap f).map Prod.fst).Nodup →
      ((decls1.flatMap f).foldl insStep []).lookup name =
        ((decls2.flatMap f).foldl insStep []).lookup name := by
    intro f hnd
    have hp : (decls1.flatMap f).Perm (decls2.flatMap f) := hperm.flatMap_right f
    have hprev : ((decls1.flatMap f).reverse).Perm ((decls2.flatMap f).reverse) :=
      ((List.reverse_perm _).trans hp).trans (List.reverse_perm _).symm
    have hndrev : (((decls1.flatMap f).reverse).map Prod.fst).Nodup := by
      rw [List.map_reverse]
      exact List.nodup_reverse.mpr hnd
    rw [foldl_insStep_lookup, foldl_insStep_lookup, lookup_perm hprev name hndrev]
  constructor
  · rw [show (analyzePackageFiles decls1).Types =
        (decls1.flatMap trackedTypes).foldl insStep ([] : List (String × String)) from
        foldl_analyzeDecl_Types decls1 emptyExported,
      show (analyzePackageFiles decls2).Types =
        (decls2.flatMap trackedTypes).foldl insStep ([] : List (String × String)) from
        foldl_analyzeDecl_Types decls2 emptyExported]
    exact key trackedTypes hT
  · rw [show (analyzePackageFiles decls1).Functions =
        (decls1.flatMap trackedFunctions).foldl insStep ([] : List (String × String)) from
        foldl_analyzeDecl_Functions decls1 emptyExported,
      show (analyzePackageFiles decls2).Functions =
        (decls2.flatMap trackedFunctions).foldl insStep ([] : List (String × String)) from
        foldl_analyzeDecl_Functions decls2 emptyExported]
    exact key trackedFunctions hF

/-- Witness for C9: swapping a function and a type declaration. -/
theorem analyzePackageFiles_order_independent_witness :
    (analyzePackageFiles [Decl.funcDecl ⟨"F", none, "func()"⟩,
        Decl.genDecl [Spec.typeSpec ⟨"T", .nonStruct "int"⟩]]).Types.lookup "T" =
      (analyzePackageFiles [Decl.genDecl [Spec.typeSpec ⟨"T", .nonStruct "int"⟩],
        Decl.funcDecl ⟨"F", none, "func()"⟩]).Types.lookup "T" ∧
    (analyzePackageFiles [Decl.funcDecl ⟨"F", none, "func()"⟩,
        Decl.genDecl [Spec.typeSpec ⟨"T", .nonStruct "int"⟩]]).Functions.lookup "F" =
      (analyzePackageFiles [Decl.genDecl [Spec.typeSpec ⟨"T", .nonStruct "int"⟩],
        Decl.funcDecl ⟨"F", none, "func()"⟩]).Functions.lookup "F" :=
  ⟨(analyzePackageFiles_order_independent _ _
      (List.Perm.swap _ _ _) (by decide) (by decide) "T").1,
    (analyzePackageFiles_order_independent _ _
      (List.Perm.swap _ _ _) (by decide) (by decide) "F").2⟩

end Semtype
